import Mathlib

/-!
Shallow embedding of the inventory mutation engine of the
`asc-item-manager` repository (`src/server/itemArrayManager.ts`),
together with theorems settling the frozen claims about it.

Conventions of the embedding:
* JavaScript numbers that hold quantities, weights, cell sizes and decay
  counters are modelled as `Int` (the code only ever adds, subtracts,
  multiplies and compares them).
* `Item[]` is modelled as `List Item`; in-place `splice`/index mutation is
  modelled by pure list transformations acting on the first stack whose
  `uid` matches, exactly as `Array.prototype.findIndex` locates it.
* `Utility.clone.arrayData` / `Utility.clone.objectData` (deep clones,
  code of the repository outside `src/`) are value copies; in a pure
  embedding they are the identity, so every operation simply returns a new
  value and never touches its argument.
* `ItemManagerConfig` (`shared/config.ts`, not under `src/`) is
  modelled from the spec: an owner capacity policy holding a default
  maximum cell grid and maximum weight, each independently toggle-able
  (spec section 3, "Owner Capacity Policy"). It is threaded as the
  `Config` parameter.
* `Utility.uid.generate` (code of the repository outside `src/`) is
  modelled from the spec: it returns a fresh globally-unique identifier.
  It is threaded as a generator `gen : Nat → String` together with a
  counter `fresh : Nat`; one call consumes one counter value.
* The item catalog (`itemManager.getBaseItem`) is threaded as a lookup
  function `catalog : String → Option BaseItem`.  `itemManager.create`
  clamps `maxStack` to at least 1 and `weight` to at least 0 before an
  item enters the catalog, so catalog entries satisfy `1 ≤ maxStack`.
* Each engine operation returns a pair `(result, errorMessage)`: the
  source resets the shared `errorMessage` to the empty string on entry and
  each failure path either sets a message (`setErrorMessage`) or returns
  `undefined` silently; the second component is the message left behind.
-/

namespace AscItems

/-- A cell grid extent, `{width, height}` in the source. -/
structure MaxCells where
  width : Int
  height : Int
deriving DecidableEq

/-- Capacity policy, modelled from the spec: `ItemManagerConfig` holds a
default maximum cell grid and maximum weight, each independently
toggle-able (`slots.enabled` / `weight.enabled`). -/
structure Config where
  slotsEnabled : Bool
  maxCells : MaxCells
  weightEnabled : Bool
  maxWeight : Int
deriving DecidableEq

/-- Per-call options (`AddOptions` in `shared/types.ts`); the `name`
field is never read by the engine and is omitted. -/
structure AddOptions where
  maxWeight : Option Int := none
  maxCells : Option MaxCells := none
  data : Option String := none
deriving DecidableEq

/-- Catalog entry (`BaseItem` in `shared/types.ts`); the purely
descriptive payload fields (name, description, icon, rotation,
durability, rules, use event) carry no engine semantics and are omitted. -/
structure BaseItem where
  id : String
  width : Int
  height : Int
  maxStack : Int
  weight : Int
  decay : Option Int := none
deriving DecidableEq

/-- An item stack (`Item` in `shared/types.ts`): the catalog fields plus
the unique stack identifier `uid`, the `quantity`, and optional free-form
auxiliary `data` (modelled as an opaque `String`). -/
structure Item where
  uid : String
  id : String
  width : Int
  height : Int
  maxStack : Int
  weight : Int
  decay : Option Int := none
  quantity : Int
  data : Option String := none
deriving DecidableEq

/-- A patch for `update` (`Partial<Omit<Item, '_id'>>`): every stack field
may independently be present (overwrites) or absent (keeps the old value),
exactly as `Object.assign` merges own properties. -/
structure ItemPatch where
  uid : Option String := none
  id : Option String := none
  width : Option Int := none
  height : Option Int := none
  maxStack : Option Int := none
  weight : Option Int := none
  decay : Option Int := none
  quantity : Option Int := none
  data : Option String := none
deriving DecidableEq

/-- Shallow merge of a patch onto a stack (`Object.assign(items[index], data)`). -/
def applyPatch (p : ItemPatch) (it : Item) : Item :=
  { uid := p.uid.getD it.uid
    id := p.id.getD it.id
    width := p.width.getD it.width
    height := p.height.getD it.height
    maxStack := p.maxStack.getD it.maxStack
    weight := p.weight.getD it.weight
    decay := match p.decay with
      | some d => some d
      | none => it.decay
    quantity := p.quantity.getD it.quantity
    data := match p.data with
      | some d => some d
      | none => it.data }

/-- Total weight of a collection: `items.reduce((sum, item) => sum + item.quantity * item.weight, 0)`. -/
def totalWeight (items : List Item) : Int :=
  (items.map (fun it => it.quantity * it.weight)).sum

/-- Source `isWeightExceeded`: the total weight strictly exceeds `maxWeight`. -/
def isWeightExceeded (items : List Item) (maxWeight : Int) : Bool :=
  decide (maxWeight < totalWeight items)

/-- JavaScript `options.maxWeight || default`: a number is falsy exactly
when it is `0` (or absent), in which case the configured default is used. -/
def jsOrWeight (o : Option Int) (dflt : Int) : Int :=
  match o with
  | none => dflt
  | some w => if w = 0 then dflt else w

/-- Total occupied cells of a collection: `items.reduce((sum, item) => sum + item.width * item.height, 0)`. -/
def totalCells (items : List Item) : Int :=
  (items.map (fun it => it.width * it.height)).sum

/-- Source `verifyStackAndWeight`: checks the cell limit when slots are
enabled (a non-positive available cell total always fails), then the
weight limit when weight is enabled.  `options.maxCells` is an object and
hence only falsy when absent; `options.maxWeight` follows `jsOrWeight`. -/
def verifyStackAndWeight (cfg : Config) (items : List Item) (o : AddOptions) : Bool :=
  let maxCells := o.maxCells.getD cfg.maxCells
  let maxWeight := jsOrWeight o.maxWeight cfg.maxWeight
  let totalAvailableCells := maxCells.width * maxCells.height
  if (cfg.slotsEnabled && decide (totalAvailableCells < totalCells items))
      || decide (totalAvailableCells ≤ 0) then
    false
  else if cfg.weightEnabled && isWeightExceeded items maxWeight then
    false
  else
    true

/-- New stack built by `addNewItemStacks`:
`{ ...baseItem, quantity, uid }`, with `options.data` attached when present. -/
def mkItemFromBase (b : BaseItem) (q : Int) (uid : String) (d : Option String) : Item :=
  { uid := uid
    id := b.id
    width := b.width
    height := b.height
    maxStack := b.maxStack
    weight := b.weight
    decay := b.decay
    quantity := q
    data := d }

/-- Loop body of `addNewItemStacks`, structurally recursive on a fuel
argument.  The source loop runs `while (quantity > 0)`, pushing a stack of
`min(quantity, maxStack)` units each turn; with `1 ≤ maxStack` it performs
at most `quantity` turns, so fuel `quantity.toNat + 1` is never exhausted.
With `maxStack ≤ 0` the source loop never terminates; that divergence is
modelled as `none` (a catalog entry always has `1 ≤ maxStack`, because
`itemManager.create` clamps it). -/
def addNewGo (cfg : Config) (gen : Nat → String) (o : AddOptions) (base : BaseItem) :
    Nat → Nat → List Item → Int → Option (List Item)
  | 0, _, _, _ => none
  | fuel + 1, fresh, items, q =>
    if 0 < q then
      let actual := min q base.maxStack
      let newItem := mkItemFromBase base actual (gen fresh) o.data
      addNewGo cfg gen o base fuel (fresh + 1) (items ++ [newItem]) (q - actual)
    else if verifyStackAndWeight cfg items o then some items else none

/-- Source `addNewItemStacks`: creates capped new stacks until the
quantity is exhausted, then validates the result with
`verifyStackAndWeight`, returning `undefined` (here `none`) on failure. -/
def addNewItemStacks (cfg : Config) (gen : Nat → String) (o : AddOptions) (base : BaseItem)
    (fresh : Nat) (items : List Item) (q : Int) : Option (List Item) :=
  addNewGo cfg gen o base (q.toNat + 1) fresh items q

/-- Greedy fill loop of `handleItemStacking`: walks the collection in
order, skipping stacks of a different id and stacks exactly at
`maxStack`; at the first eligible stack with nothing left to place it
stops (`break`); otherwise it adds `min(maxStack - quantity, remaining)`
to the stack and continues with the reduced remainder.  Returns the
updated collection and the remaining quantity. -/
def fillExisting (baseId : String) (maxStack : Int) : List Item → Int → List Item × Int
  | [], q => ([], q)
  | it :: rest, q =>
    if it.id ≠ baseId ∨ it.quantity = maxStack then
      let r := fillExisting baseId maxStack rest q
      (it :: r.1, r.2)
    else if q ≤ 0 then
      (it :: rest, q)
    else
      let qadd := min (maxStack - it.quantity) q
      let r := fillExisting baseId maxStack rest (q - qadd)
      ({ it with quantity := it.quantity + qadd } :: r.1, r.2)

/-- Source `handleItemStacking`: non-stackables go straight to new
stacks; otherwise existing stacks are greedily filled and only a positive
remainder is placed into new stacks — when everything was absorbed the
collection is returned without any capacity validation. -/
def handleItemStacking (cfg : Config) (gen : Nat → String) (o : AddOptions) (base : BaseItem)
    (fresh : Nat) (items : List Item) (q : Int) : Option (List Item) :=
  if base.maxStack ≤ 1 then
    addNewItemStacks cfg gen o base fresh items q
  else
    let r := fillExisting base.id base.maxStack items q
    if 0 < r.2 then addNewItemStacks cfg gen o base fresh r.1 r.2 else some r.1

/-- Source `add`: resolves the catalog entry (failure message
`Base item does not exist`), then stacks the quantity; a capacity failure
surfaces as `none` with an empty message. -/
def add (catalog : String → Option BaseItem) (cfg : Config) (gen : Nat → String)
    (fresh : Nat) (id : String) (q : Int) (items : List Item) (o : AddOptions) :
    Option (List Item) × String :=
  match catalog id with
  | none => (none, "Base item does not exist")
  | some base =>
    if base.maxStack ≤ 1 then
      (addNewItemStacks cfg gen o base fresh items q, "")
    else
      (handleItemStacking cfg gen o base fresh items q, "")

/-- Source `addSpecificItem`: appends the supplied stack as-is and
validates capacity/weight. -/
def addSpecificItem (cfg : Config) (item : Item) (items : List Item) (o : AddOptions) :
    Option (List Item) × String :=
  let result := items ++ [item]
  (if verifyStackAndWeight cfg result o then some result else none, "")

/-- First stack whose `uid` matches, as located by `Array.prototype.findIndex`. -/
def lookupUid (uid : String) : List Item → Option Item
  | [] => none
  | it :: rest => if it.uid = uid then some it else lookupUid uid rest

/-- Replace the first stack whose `uid` matches by `f` of it (in-place
index assignment in the source). -/
def replaceUid (uid : String) (f : Item → Item) : List Item → List Item
  | [] => []
  | it :: rest => if it.uid = uid then f it :: rest else it :: replaceUid uid f rest

/-- Delete the first stack whose `uid` matches (`splice(index, 1)` in the source). -/
def eraseUid (uid : String) : List Item → List Item
  | [] => []
  | it :: rest => if it.uid = uid then rest else it :: eraseUid uid rest

/-- Source `remove`: finds the stack by `uid` (note: the argument is
compared against `item.uid`, not against the item type `item.id`); fails
silently when absent or when it holds less than the requested quantity;
deletes the stack when the request covers its whole quantity, otherwise
decrements it. -/
def remove (uid : String) (q : Int) (items : List Item) : Option (List Item) × String :=
  match lookupUid uid items with
  | none => (none, "")
  | some it =>
    if it.quantity < q then (none, "")
    else if it.quantity ≤ q then (some (eraseUid uid items), "")
    else (some (replaceUid uid (fun j => { j with quantity := j.quantity - q }) items), "")

/-- Source `removeAt`: deletes the identified stack outright, returning
the new collection together with the spliced-out stack. -/
def removeAt (uid : String) (items : List Item) : Option (List Item × Item) × String :=
  match lookupUid uid items with
  | none => (none, "Could not find item to remove")
  | some it => (some (eraseUid uid items, it), "")

/-- Source `removeQuantityFrom`: like `remove` but with explicit error
messages, deleting on exact exhaustion and decrementing otherwise. -/
def removeQuantityFrom (uid : String) (q : Int) (items : List Item) :
    Option (List Item) × String :=
  match lookupUid uid items with
  | none => (none, "Could not find item to remove")
  | some it =>
    if it.quantity < q then (none, "Quantity provided does not match available item quantity")
    else if it.quantity = q then (some (eraseUid uid items), "")
    else (some (replaceUid uid (fun j => { j with quantity := j.quantity - q }) items), "")

/-- Source `split`: locates the stack, re-resolves its catalog entry,
rejects when the amount reaches or exceeds the stack's quantity
(`Item cannot be split`), otherwise decrements the source, appends a new
stack carrying the amount under a freshly generated uid (its remaining
fields, auxiliary data included, are a deep copy of the decremented
source), and validates capacity/weight. -/
def split (catalog : String → Option BaseItem) (cfg : Config) (gen : Nat → String)
    (fresh : Nat) (uid : String) (amountToSplit : Int) (items : List Item) (o : AddOptions) :
    Option (List Item) × String :=
  match lookupUid uid items with
  | none => (none, "Could not find given item in inventory during split")
  | some it =>
    match catalog it.id with
    | none => (none, "Base item does not exist")
    | some _ =>
      if it.quantity < amountToSplit ∨ it.quantity = amountToSplit then
        (none, "Item cannot be split")
      else
        let items' := replaceUid uid (fun j => { j with quantity := j.quantity - amountToSplit }) items
        let newItem : Item := { it with quantity := amountToSplit, uid := gen fresh }
        let result := items' ++ [newItem]
        (if verifyStackAndWeight cfg result o then some result else none, "")

/-- Source `stack`: locates both stacks, requires equal item types, a
stackable catalog entry, and free capacity on the target
(`diffToMax = target.maxStack - target.quantity > 0`); then it adds the
whole `diffToMax` to the target (this is the source's literal behaviour —
it does not clamp by the source stack's quantity) and decrements the
source stack by `diffToMax`, deleting it when it held no more than that.
The source reads the source stack again after mutating the target, which
matters exactly when both uids name the same stack; `srcQty` reproduces
that read. -/
def stack (catalog : String → Option BaseItem) (uidToStackOn uidToStack : String)
    (items : List Item) : Option (List Item) × String :=
  match lookupUid uidToStackOn items, lookupUid uidToStack items with
  | none, _ => (none, "Could not find both items in inventory")
  | some _, none => (none, "Could not find both items in inventory")
  | some target, some source =>
    if target.id ≠ source.id then
      (none, "Both items were not the same, and cannot be stacked")
    else
      match catalog source.id with
      | none => (none, "Item cannot be stacked")
      | some base =>
        if base.maxStack ≤ 1 then
          (none, "Item cannot be stacked")
        else
          let diffToMax := target.maxStack - target.quantity
          if diffToMax ≤ 0 then
            (none, "Item is already at max stack")
          else
            let items1 := replaceUid uidToStackOn
              (fun t => { t with quantity := t.quantity + diffToMax }) items
            let srcQty := if uidToStack = uidToStackOn then target.quantity + diffToMax
              else source.quantity
            if diffToMax < srcQty then
              (some (replaceUid uidToStack
                (fun s => { s with quantity := s.quantity - diffToMax }) items1), "")
            else
              (some (eraseUid uidToStack items1), "")

/-- Source `update`: locates the stack; a patch that sets `decay` to a
non-positive value deletes the stack instead of patching it; otherwise
the patch is shallow-merged onto the stack. -/
def update (uid : String) (p : ItemPatch) (items : List Item) : Option (List Item) × String :=
  match lookupUid uid items with
  | none => (none, "Unable to get item by uid, item does not exist")
  | some _ =>
    match p.decay with
    | some d =>
      if d ≤ 0 then (some (eraseUid uid items), "")
      else (some (replaceUid uid (applyPatch p) items), "")
    | none => (some (replaceUid uid (applyPatch p) items), "")

/-- Per-stack decay step of `invokeDecay`: a stack without a counter is
kept unchanged; otherwise the counter is decremented and the stack is
dropped when the result is non-positive. -/
def decayStep (it : Item) : Option Item :=
  match it.decay with
  | none => some it
  | some d => if d - 1 ≤ 0 then none else some { it with decay := some (d - 1) }

/-- Source `invokeDecay`: the reverse-index loop with `splice` keeps or
drops each stack independently of the others, which is exactly a
`filterMap` of the per-stack step in collection order. -/
def invokeDecay (items : List Item) : List Item :=
  items.filterMap decayStep

/-- Total quantity a collection holds of one item type (the aggregation
performed by the source's `has`). -/
def totalQtyOf (id : String) (items : List Item) : Int :=
  (items.map (fun it => if it.id = id then it.quantity else 0)).sum

/-- Collection quantity invariant: every stack's quantity lies in
`[1, maxStack]` (spec section 3). -/
def QtyInv (items : List Item) : Prop :=
  ∀ it ∈ items, 1 ≤ it.quantity ∧ it.quantity ≤ it.maxStack

/-- Collection identifier invariant: stack uids are pairwise distinct. -/
def UidsNodup (items : List Item) : Prop :=
  (items.map Item.uid).Nodup

/-! ### Concrete fixtures for scenario evaluation -/

/-- Deterministic, injective uid generator used in concrete scenarios. -/
def genA (n : Nat) : String :=
  String.mk (List.replicate (n + 1) 'a')

/-- Catalog entry of the spec's scenario item type: maxStack 5, weight 1. -/
def waterBottle : BaseItem :=
  { id := "water_bottle", width := 1, height := 1, maxStack := 5, weight := 1 }

/-- A catalog holding exactly the water bottle. -/
def wbCatalog : String → Option BaseItem :=
  fun s => if s = "water_bottle" then some waterBottle else none

/-- An effectively unlimited capacity policy. -/
def freeConfig : Config :=
  { slotsEnabled := false, maxCells := ⟨100, 100⟩, weightEnabled := false, maxWeight := 1000 }

/-- A water-bottle stack with the given uid and quantity. -/
def wb (u : String) (q : Int) : Item :=
  { uid := u, id := "water_bottle", width := 1, height := 1, maxStack := 5, weight := 1,
    quantity := q }

/-- Catalog entry of a heavy item type used for the weight-limit counterexample. -/
def brickBase : BaseItem :=
  { id := "brick", width := 1, height := 1, maxStack := 5, weight := 10 }

/-- A catalog holding exactly the brick. -/
def brickCatalog : String → Option BaseItem :=
  fun s => if s = "brick" then some brickBase else none

/-- A policy with the weight limit enabled at maximum weight 15. -/
def heavyConfig : Config :=
  { slotsEnabled := false, maxCells := ⟨10, 10⟩, weightEnabled := true, maxWeight := 15 }

/-- A brick stack with the given uid and quantity. -/
def brick (u : String) (q : Int) : Item :=
  { uid := u, id := "brick", width := 1, height := 1, maxStack := 5, weight := 10,
    quantity := q }

/-- Reference definition following the spec's words (section 4.2 step 3),
to be compared with the source's fill loop (`fillExisting`): "greedily
fill existing stacks of the same item type that are not already at max
capacity, in collection order: for each such stack, add `min(remaining
capacity of that stack, quantity still to place)`, decrementing the
amount still to place. Stop early once the amount to place reaches
zero."  A stack is updated exactly when it is of the requested type, not
at max capacity, and a positive amount is still to be placed; every
other stack is kept unchanged in its place. -/
def greedyFillSpec (baseId : String) (maxStack : Int) : List Item → Int → List Item × Int
  | [], q => ([], q)
  | it :: rest, q =>
    if it.id = baseId ∧ it.quantity ≠ maxStack ∧ 0 < q then
      let qadd := min (maxStack - it.quantity) q
      let r := greedyFillSpec baseId maxStack rest (q - qadd)
      ({ it with quantity := it.quantity + qadd } :: r.1, r.2)
    else
      let r := greedyFillSpec baseId maxStack rest q
      (it :: r.1, r.2)

end AscItems

namespace AscItems

/-! ### Helper lemmas about uid-directed list operations -/

theorem lookupUid_mem {uid : String} {items : List Item} {it : Item}
    (h : lookupUid uid items = some it) : it ∈ items ∧ it.uid = uid := by
  induction items with
  | nil => simp [lookupUid] at h
  | cons j rest ih =>
    by_cases hj : j.uid = uid
    · simp [lookupUid, hj] at h
      subst h
      exact ⟨List.mem_cons_self _ _, hj⟩
    · simp [lookupUid, hj] at h
      rcases ih h with ⟨h1, h2⟩
      exact ⟨List.mem_cons_of_mem _ h1, h2⟩

theorem lookupUid_decomp {uid : String} {items : List Item} {it : Item}
    (h : lookupUid uid items = some it) :
    ∃ l1 l2, items = l1 ++ it :: l2 ∧ (∀ j ∈ l1, j.uid ≠ uid) := by
  induction items with
  | nil => simp [lookupUid] at h
  | cons j rest ih =>
    by_cases hj : j.uid = uid
    · simp [lookupUid, hj] at h
      subst h
      exact ⟨[], rest, rfl, by simp⟩
    · simp [lookupUid, hj] at h
      rcases ih h with ⟨l1, l2, heq, hne⟩
      refine ⟨j :: l1, l2, by simp [heq], ?_⟩
      intro x hx
      rcases List.mem_cons.mp hx with rfl | hx
      · exact hj
      · exact hne x hx

theorem replaceUid_of_decomp {uid : String} {l1 l2 : List Item} {it : Item}
    (f : Item → Item) (hne : ∀ j ∈ l1, j.uid ≠ uid) (hit : it.uid = uid) :
    replaceUid uid f (l1 ++ it :: l2) = l1 ++ f it :: l2 := by
  induction l1 with
  | nil => simp [replaceUid, hit]
  | cons j rest ih =>
    have hj : j.uid ≠ uid := hne j (List.mem_cons_self _ _)
    simp only [List.cons_append, replaceUid, if_neg hj]
    exact congrArg (fun l => j :: l) (ih (fun x hx => hne x (List.mem_cons_of_mem _ hx)))

theorem eraseUid_of_decomp {uid : String} {l1 l2 : List Item} {it : Item}
    (hne : ∀ j ∈ l1, j.uid ≠ uid) (hit : it.uid = uid) :
    eraseUid uid (l1 ++ it :: l2) = l1 ++ l2 := by
  induction l1 with
  | nil => simp [eraseUid, hit]
  | cons j rest ih =>
    have hj : j.uid ≠ uid := hne j (List.mem_cons_self _ _)
    simp only [List.cons_append, eraseUid, if_neg hj]
    exact congrArg (fun l => j :: l) (ih (fun x hx => hne x (List.mem_cons_of_mem _ hx)))

theorem eraseUid_sublist (uid : String) (items : List Item) :
    (eraseUid uid items).Sublist items := by
  induction items with
  | nil => simp [eraseUid]
  | cons j rest ih =>
    by_cases hj : j.uid = uid
    · simp only [eraseUid, if_pos hj]
      exact (List.sublist_cons_self j rest)
    · simp only [eraseUid, if_neg hj]
      exact List.Sublist.cons₂ j ih

theorem replaceUid_map_uid {uid : String} {f : Item → Item}
    (hf : ∀ j, (f j).uid = j.uid) (items : List Item) :
    (replaceUid uid f items).map Item.uid = items.map Item.uid := by
  induction items with
  | nil => rfl
  | cons j rest ih =>
    by_cases hj : j.uid = uid
    · simp [replaceUid, hj, hf]
    · simp [replaceUid, hj, ih]

theorem mem_replaceUid {uid : String} {f : Item → Item} {items : List Item} {x : Item}
    (hx : x ∈ replaceUid uid f items) :
    x ∈ items ∨ ∃ it ∈ items, it.uid = uid ∧ x = f it := by
  induction items with
  | nil => simp [replaceUid] at hx
  | cons j rest ih =>
    by_cases hj : j.uid = uid
    · simp only [replaceUid, if_pos hj] at hx
      rcases List.mem_cons.mp hx with rfl | hx
      · exact Or.inr ⟨j, List.mem_cons_self _ _, hj, rfl⟩
      · exact Or.inl (List.mem_cons_of_mem _ hx)
    · simp only [replaceUid, if_neg hj] at hx
      rcases List.mem_cons.mp hx with rfl | hx
      · exact Or.inl (List.mem_cons_self _ _)
      · rcases ih hx with h | ⟨it, h1, h2, h3⟩
        · exact Or.inl (List.mem_cons_of_mem _ h)
        · exact Or.inr ⟨it, List.mem_cons_of_mem _ h1, h2, h3⟩

theorem lookupUid_replaceUid {u v : String} {f : Item → Item}
    (hf : ∀ j, (f j).uid = j.uid) (items : List Item) :
    lookupUid v (replaceUid u f items)
      = if v = u then (lookupUid u items).map f else lookupUid v items := by
  induction items with
  | nil => by_cases h : v = u <;> simp [replaceUid, lookupUid, h]
  | cons j rest ih =>
    by_cases hj : j.uid = u
    · by_cases hv : v = u
      · subst hv
        simp [replaceUid, lookupUid, hj, hf]
      · have hjv : j.uid ≠ v := by rw [hj]; exact fun h => hv h.symm
        have huv : ¬ u = v := fun h => hv h.symm
        simp [replaceUid, lookupUid, hj, hv, hjv, huv, hf]
    · by_cases hjv : j.uid = v
      · by_cases hv : v = u
        · exact absurd (hv ▸ hjv) hj
        · simp [replaceUid, lookupUid, hj, hjv, hv]
      · simp only [replaceUid, if_neg hj, lookupUid, if_neg hjv]
        exact ih

theorem QtyInv_mono {items items' : List Item}
    (hsub : ∀ x ∈ items', x ∈ items) (h : QtyInv items) : QtyInv items' :=
  fun it hit => h it (hsub it hit)

theorem UidsNodup_eraseUid {uid : String} {items : List Item}
    (h : UidsNodup items) : UidsNodup (eraseUid uid items) :=
  ((eraseUid_sublist uid items).map Item.uid).nodup h

theorem UidsNodup_replaceUid {uid : String} {f : Item → Item}
    (hf : ∀ j, (f j).uid = j.uid) {items : List Item}
    (h : UidsNodup items) : UidsNodup (replaceUid uid f items) := by
  unfold UidsNodup
  rw [replaceUid_map_uid hf]
  exact h

end AscItems

namespace AscItems

theorem addNewGo_none_of_nonpos_max {cfg : Config} {gen : Nat → String} {o : AddOptions}
    {base : BaseItem} (hms : base.maxStack ≤ 0) :
    ∀ (fuel fresh : Nat) (items : List Item) (q : Int), 0 < q →
      addNewGo cfg gen o base fuel fresh items q = none := by
  intro fuel
  induction fuel with
  | zero => intro fresh items q hq; rfl
  | succ fuel ih =>
    intro fresh items q hq
    have hle : min q base.maxStack ≤ 0 := le_trans (min_le_right _ _) hms
    simp only [addNewGo, if_pos hq]
    exact ih (fresh + 1) _ (q - min q base.maxStack) (by omega)

theorem addNewGo_some {cfg : Config} {gen : Nat → String} {o : AddOptions} {base : BaseItem} :
    ∀ (fuel fresh : Nat) (items : List Item) (q : Int) (out : List Item),
    addNewGo cfg gen o base fuel fresh items q = some out →
    verifyStackAndWeight cfg out o = true ∧
    ∃ news : List Item, out = items ++ news ∧
      (news.map Item.quantity).sum = max q 0 ∧
      (∀ i (h : i < news.length), (news.get ⟨i, h⟩).uid = gen (fresh + i)) ∧
      (∀ n ∈ news, n.id = base.id ∧ n.maxStack = base.maxStack ∧ n.data = o.data ∧
        n.width = base.width ∧ n.height = base.height ∧ n.weight = base.weight ∧
        n.decay = base.decay ∧ 1 ≤ n.quantity ∧ n.quantity ≤ base.maxStack) := by
  intro fuel
  induction fuel with
  | zero => intro fresh items q out h; exact absurd h (by simp [addNewGo])
  | succ fuel ih =>
    intro fresh items q out h
    by_cases hq : 0 < q
    · have hms : 1 ≤ base.maxStack := by
        by_contra hms
        rw [addNewGo_none_of_nonpos_max (by omega) _ fresh items q hq] at h
        exact Option.noConfusion h
      simp only [addNewGo, if_pos hq] at h
      rcases ih (fresh + 1) _ (q - min q base.maxStack) out h with ⟨hver, news, hout, hsum, huid, hfields⟩
      have hmin1 : 1 ≤ min q base.maxStack := le_min (by omega) hms
      have hminq : min q base.maxStack ≤ q := min_le_left _ _
      have hminms : min q base.maxStack ≤ base.maxStack := min_le_right _ _
      refine ⟨hver, mkItemFromBase base (min q base.maxStack) (gen fresh) o.data :: news, ?_, ?_, ?_, ?_⟩
      · rw [hout]
        simp
      · simp only [List.map_cons, List.sum_cons, mkItemFromBase]
        rw [hsum]
        omega
      · intro i hi
        match i with
        | 0 => simp [mkItemFromBase]
        | Nat.succ i =>
          have hi' : i < news.length := by simpa using hi
          have := huid i hi'
          simp only [List.get_cons_succ]
          rw [this]
          congr 1
          omega
      · intro n hn
        rcases List.mem_cons.mp hn with rfl | hn
        · exact ⟨rfl, rfl, rfl, rfl, rfl, rfl, rfl, hmin1, hminms⟩
        · exact hfields n hn
    · simp only [addNewGo, if_neg hq] at h
      by_cases hv : verifyStackAndWeight cfg items o
      · simp only [if_pos hv] at h
        obtain rfl : items = out := Option.some.inj h
        refine ⟨hv, [], by simp, ?_, by simp, by simp⟩
        simp only [List.map_nil, List.sum_nil]
        exact (max_eq_right (by omega : q ≤ (0 : Int))).symm
      · simp [if_neg hv] at h

theorem addNewItemStacks_some {cfg : Config} {gen : Nat → String} {o : AddOptions}
    {base : BaseItem} {fresh : Nat} {items : List Item} {q : Int} {out : List Item}
    (h : addNewItemStacks cfg gen o base fresh items q = some out) :
    verifyStackAndWeight cfg out o = true ∧
    ∃ news : List Item, out = items ++ news ∧
      (news.map Item.quantity).sum = max q 0 ∧
      (∀ i (hi : i < news.length), (news.get ⟨i, hi⟩).uid = gen (fresh + i)) ∧
      (∀ n ∈ news, n.id = base.id ∧ n.maxStack = base.maxStack ∧ n.data = o.data ∧
        n.width = base.width ∧ n.height = base.height ∧ n.weight = base.weight ∧
        n.decay = base.decay ∧ 1 ≤ n.quantity ∧ n.quantity ≤ base.maxStack) :=
  addNewGo_some (q.toNat + 1) fresh items q out h

end AscItems

namespace AscItems

theorem fillExisting_map_uid (baseId : String) (ms : Int) :
    ∀ (items : List Item) (q : Int),
      (fillExisting baseId ms items q).1.map Item.uid = items.map Item.uid := by
  intro items
  induction items with
  | nil => intro q; rfl
  | cons it rest ih =>
    intro q
    rcases Decidable.em (it.id ≠ baseId ∨ it.quantity = ms) with h1 | h1
    · simp only [fillExisting, if_pos h1, List.map_cons]
      rw [ih q]
    · rcases Decidable.em (q ≤ 0) with h2 | h2
      · simp [fillExisting, if_neg h1, if_pos h2]
      · simp only [fillExisting, if_neg h1, if_neg h2, List.map_cons]
        rw [ih (q - min (ms - it.quantity) q)]

theorem fillExisting_total (baseId : String) (ms : Int) :
    ∀ (items : List Item) (q : Int),
      totalQtyOf baseId (fillExisting baseId ms items q).1 + (fillExisting baseId ms items q).2
        = totalQtyOf baseId items + q := by
  intro items
  induction items with
  | nil => intro q; rfl
  | cons it rest ih =>
    intro q
    rcases Decidable.em (it.id ≠ baseId ∨ it.quantity = ms) with h1 | h1
    · simp only [fillExisting, if_pos h1, totalQtyOf, List.map_cons, List.sum_cons]
      have := ih q
      simp only [totalQtyOf] at this
      omega
    · have hid : it.id = baseId := by
        by_contra hc
        exact h1 (Or.inl hc)
      rcases Decidable.em (q ≤ 0) with h2 | h2
      · simp [fillExisting, if_neg h1, if_pos h2]
      · simp only [fillExisting, if_neg h1, if_neg h2]
        simp only [totalQtyOf, List.map_cons, List.sum_cons, hid, if_pos rfl, ite_true]
        have := ih (q - min (ms - it.quantity) q)
        simp only [totalQtyOf] at this
        omega

theorem fillExisting_nonneg (baseId : String) (ms : Int) :
    ∀ (items : List Item) (q : Int), 0 ≤ q → 0 ≤ (fillExisting baseId ms items q).2 := by
  intro items
  induction items with
  | nil => intro q hq; exact hq
  | cons it rest ih =>
    intro q hq
    rcases Decidable.em (it.id ≠ baseId ∨ it.quantity = ms) with h1 | h1
    · simp only [fillExisting, if_pos h1]
      exact ih q hq
    · rcases Decidable.em (q ≤ 0) with h2 | h2
      · simp only [fillExisting, if_neg h1, if_pos h2]
        exact hq
      · simp only [fillExisting, if_neg h1, if_neg h2]
        have hminq : min (ms - it.quantity) q ≤ q := min_le_right _ _
        exact ih (q - min (ms - it.quantity) q) (by omega)

theorem fillExisting_qtyInv {baseId : String} {ms : Int} :
    ∀ {items : List Item} {q : Int}, QtyInv items →
      (∀ it ∈ items, it.id = baseId → it.maxStack = ms) →
      QtyInv (fillExisting baseId ms items q).1 := by
  intro items
  induction items with
  | nil =>
    intro q _ _
    intro x hx
    exact absurd hx (by simp [fillExisting])
  | cons it rest ih =>
    intro q hinv hcons
    have hit := hinv it (List.mem_cons_self _ _)
    have hinv' : QtyInv rest := fun x hx => hinv x (List.mem_cons_of_mem _ hx)
    have hcons' : ∀ x ∈ rest, x.id = baseId → x.maxStack = ms :=
      fun x hx => hcons x (List.mem_cons_of_mem _ hx)
    rcases Decidable.em (it.id ≠ baseId ∨ it.quantity = ms) with h1 | h1
    · simp only [fillExisting, if_pos h1]
      intro x hx
      rcases List.mem_cons.mp hx with rfl | hx
      · exact hit
      · exact ih hinv' hcons' x hx
    · have hid : it.id = baseId := by
        by_contra hc
        exact h1 (Or.inl hc)
      have hqty : it.quantity ≠ ms := fun hc => h1 (Or.inr hc)
      rcases Decidable.em (q ≤ 0) with h2 | h2
      · simp only [fillExisting, if_neg h1, if_pos h2]
        exact hinv
      · simp only [fillExisting, if_neg h1, if_neg h2]
        intro x hx
        rcases List.mem_cons.mp hx with rfl | hx
        · have hm : it.maxStack = ms := hcons it (List.mem_cons_self _ _) hid
          have hlt : it.quantity < ms := lt_of_le_of_ne (hm ▸ hit.2) hqty
          have hmin1 : 1 ≤ min (ms - it.quantity) q := le_min (by omega) (by omega)
          have hminle : min (ms - it.quantity) q ≤ ms - it.quantity := min_le_left _ _
          exact ⟨by simp only []; omega, by simp only [hm]; omega⟩
        · exact ih hinv' hcons' x hx

end AscItems

namespace AscItems

theorem genA_injective : Function.Injective genA := by
  intro m n h
  have h2 : List.replicate (m + 1) 'a' = List.replicate (n + 1) 'a' := by
    injection h
  have h3 := congrArg List.length h2
  simp only [List.length_replicate] at h3
  omega

theorem genA_ne_u1 (m : Nat) : genA m ≠ "u1" := by
  intro h
  have h2 : List.replicate (m + 1) 'a' = ['u', '1'] := congrArg String.data h
  rw [List.replicate_succ] at h2
  have h3 := List.head_eq_of_cons_eq h2
  exact absurd h3 (by decide)

theorem decayStep_eq_some {it x : Item} (h : decayStep it = some x) :
    x.uid = it.uid ∧ x.quantity = it.quantity ∧ x.maxStack = it.maxStack := by
  unfold decayStep at h
  split at h
  · obtain rfl : it = x := Option.some.inj h
    exact ⟨rfl, rfl, rfl⟩
  · split at h
    · exact Option.noConfusion h
    · obtain rfl := Option.some.inj h
      exact ⟨rfl, rfl, rfl⟩

theorem invokeDecay_uid_sublist (items : List Item) :
    ((invokeDecay items).map Item.uid).Sublist (items.map Item.uid) := by
  induction items with
  | nil => simp [invokeDecay]
  | cons it rest ih =>
    simp only [invokeDecay, List.filterMap_cons] at *
    cases h : decayStep it with
    | none =>
      simp only [List.map_cons]
      exact ih.cons _
    | some x =>
      have hx := decayStep_eq_some h
      simp only [List.map_cons, hx.1]
      exact ih.cons₂ _

theorem mem_invokeDecay {items : List Item} {x : Item} (hx : x ∈ invokeDecay items) :
    ∃ it ∈ items, x.quantity = it.quantity ∧ x.maxStack = it.maxStack := by
  rcases List.mem_filterMap.mp hx with ⟨it, hmem, hstep⟩
  have h := decayStep_eq_some hstep
  exact ⟨it, hmem, h.2.1, h.2.2⟩

end AscItems

namespace AscItems

/-- C1: the source's `stack` adds the target's whole remaining capacity
instead of `min(remaining capacity, source quantity)`.  Stacking a source
of quantity 1 onto a target of quantity 2 (maxStack 5) fills the target to
5 and deletes the source: 3 + 1 + 1 phantom units appear out of nothing,
so the total quantity of the item type grows from 3 to 5. -/
theorem stack_creates_phantom_items :
    (stack wbCatalog "a" "b" [wb "a" 2, wb "b" 1]).1 = some [wb "a" 5] ∧
    totalQtyOf "water_bottle" [wb "a" 2, wb "b" 1] = 3 ∧
    totalQtyOf "water_bottle" [wb "a" 5] = 5 := by
  decide

/-- C4: the source's `remove` compares its first argument against the
stack identifier `uid`, not against the item type `id`: removing by the
item type identifier of the only matching stack fails, while removing by
that stack's uid succeeds. -/
theorem remove_matches_uid_not_item_type :
    (remove "water_bottle" 3 [wb "u1" 5]).1 = none ∧
    (remove "u1" 3 [wb "u1" 5]).1 = some [wb "u1" 2] := by
  decide

/-- C2 counterexample: with the weight limit enabled at 15, adding one
brick (weight 10) to a collection holding one brick succeeds by absorbing
the unit into the existing stack — no new stack is created, so
`verifyStackAndWeight` is never called and the returned collection weighs
20 > 15, violating the enabled weight limit. -/
theorem add_absorbed_skips_validation :
    heavyConfig.weightEnabled = true ∧
    (add brickCatalog heavyConfig genA 0 "brick" 1 [brick "u1" 1] {}).1 = some [brick "u1" 2] ∧
    verifyStackAndWeight heavyConfig [brick "u1" 2] {} = false := by
  decide

/-- C3 counterexample: a successful `update` whose patch sets
`quantity` to 0 retains the zero-quantity stack. -/
theorem update_retains_zero_quantity_stack :
    (update "u1" { quantity := some 0 } [wb "u1" 3]).1 = some [wb "u1" 0] ∧
    QtyInv [wb "u1" 3] ∧ ¬ QtyInv [wb "u1" 0] := by
  refine ⟨by decide, ?_, ?_⟩ <;> · unfold QtyInv; decide

/-- C5 counterexample: `split` only rejects amounts at or above the
stack's quantity, so splitting an amount of 0 from a stack of quantity 3
succeeds and appends a stack of quantity 0 — the new stack does not have
positive quantity. -/
theorem split_zero_amount_creates_empty_stack :
    ((split wbCatalog freeConfig genA 0 "u1" 0 [wb "u1" 3] {}).1).map (List.map Item.quantity)
      = some [3, 0] := by
  decide

/-- C9 counterexample: `addSpecificItem` appends the supplied stack
without checking its identifier, so adding a stack that carries an
identifier already present yields a collection with duplicate uids. -/
theorem addSpecificItem_duplicate_uid :
    (addSpecificItem freeConfig (wb "u1" 2) [wb "u1" 3] {}).1 = some [wb "u1" 3, wb "u1" 2] ∧
    UidsNodup [wb "u1" 3] ∧ ¬ UidsNodup [wb "u1" 3, wb "u1" 2] := by
  refine ⟨by decide, ?_, ?_⟩ <;> · unfold UidsNodup; decide

/-- C10: in `verifyStackAndWeight` a per-call `maxWeight` of 0 is falsy
and is replaced by the configured default limit (`options.maxWeight ||
config default`), so a caller cannot impose a zero weight limit: the
check behaves exactly as if no `maxWeight` had been passed, comparing
against the default maximum weight. -/
theorem verify_zero_maxWeight_uses_default :
    (∀ cfg items mc d,
      verifyStackAndWeight cfg items { maxWeight := some 0, maxCells := mc, data := d }
        = verifyStackAndWeight cfg items { maxWeight := none, maxCells := mc, data := d }) ∧
    (∀ dflt, jsOrWeight (some 0) dflt = dflt ∧ jsOrWeight none dflt = dflt) := by
  constructor
  · intro cfg items mc d
    simp [verifyStackAndWeight, jsOrWeight]
  · intro dflt
    constructor
    · simp [jsOrWeight]
    · rfl

/-- C8: `invokeDecay` always succeeds; every stack carrying a decay
counter has it decremented by one and is removed exactly when the
decremented counter is non-positive (`d - 1 ≤ 0`, i.e. `d ≤ 1`), stacks
without a counter are kept unchanged, and a collection with no decaying
stacks is returned equal to its input. -/
theorem invokeDecay_spec (items : List Item) :
    invokeDecay items = items.filterMap (fun it =>
      match it.decay with
      | none => some it
      | some d => if d ≤ 1 then none else some { it with decay := some (d - 1) }) ∧
    ((∀ it ∈ items, it.decay = none) → invokeDecay items = items) := by
  constructor
  · unfold invokeDecay
    apply List.filterMap_congr
    intro it _
    unfold decayStep
    cases hd : it.decay with
    | none => rfl
    | some d =>
      simp only [(by omega : d - 1 ≤ 0 ↔ d ≤ 1)]
  · intro h
    induction items with
    | nil => rfl
    | cons it rest ih =>
      have hit := h it (List.mem_cons_self _ _)
      have ih' := ih (fun x hx => h x (List.mem_cons_of_mem _ hx))
      simp only [invokeDecay, List.filterMap_cons] at ih' ⊢
      simp only [decayStep, hit]
      rw [ih']

end AscItems

namespace AscItems

theorem totalQtyOf_append (id : String) (l1 l2 : List Item) :
    totalQtyOf id (l1 ++ l2) = totalQtyOf id l1 + totalQtyOf id l2 := by
  simp [totalQtyOf]

theorem totalQtyOf_of_all_id {id : String} {l : List Item} (h : ∀ n ∈ l, n.id = id) :
    totalQtyOf id l = (l.map Item.quantity).sum := by
  induction l with
  | nil => rfl
  | cons n rest ih =>
    have hn := h n (List.mem_cons_self _ _)
    simp only [totalQtyOf, List.map_cons, List.sum_cons, hn, if_pos rfl, ite_true] at *
    rw [ih (fun x hx => h x (List.mem_cons_of_mem _ hx))]

theorem fillExisting_length (baseId : String) (ms : Int) (items : List Item) (q : Int) :
    (fillExisting baseId ms items q).1.length = items.length := by
  have h := congrArg List.length (fillExisting_map_uid baseId ms items q)
  simpa using h

/-- C2 (amended): `add` runs `verifyStackAndWeight` exactly on the paths
that create new stacks; so a successful `add` whose result has a
different length than its input — one that created at least one stack —
always satisfies the capacity/weight validation, and every successful
`split` and `addSpecificItem` satisfies it as well.  (The counterexample
shows the validation is skipped when the whole quantity is absorbed into
existing stacks.) -/
theorem add_split_validate_on_new_stacks :
    (∀ catalog cfg gen fresh id q items o out,
      (add catalog cfg gen fresh id q items o).1 = some out →
      out.length ≠ items.length →
      verifyStackAndWeight cfg out o = true) ∧
    (∀ catalog cfg gen fresh uid amt items o out,
      (split catalog cfg gen fresh uid amt items o).1 = some out →
      verifyStackAndWeight cfg out o = true) ∧
    (∀ cfg item items o out,
      (addSpecificItem cfg item items o).1 = some out →
      verifyStackAndWeight cfg out o = true) := by
  refine ⟨?_, ?_, ?_⟩
  · intro catalog cfg gen fresh id q items o out h hlen
    unfold add at h
    split at h
    · exact absurd h (by simp)
    · rename_i base hcat
      split at h
      · have h' : addNewItemStacks cfg gen o base fresh items q = some out := h
        exact (addNewItemStacks_some h').1
      · have h' : handleItemStacking cfg gen o base fresh items q = some out := h
        unfold handleItemStacking at h'
        split at h'
        · exact (addNewItemStacks_some h').1
        · replace h' :
              (if 0 < (fillExisting base.id base.maxStack items q).2 then
                addNewItemStacks cfg gen o base fresh (fillExisting base.id base.maxStack items q).1
                  (fillExisting base.id base.maxStack items q).2
              else some (fillExisting base.id base.maxStack items q).1) = some out := h'
          split at h'
          · exact (addNewItemStacks_some h').1
          · obtain rfl := Option.some.inj h'
            exact absurd (fillExisting_length base.id base.maxStack items q) hlen
  · intro catalog cfg gen fresh uid amt items o out h
    unfold split at h
    split at h
    · exact absurd h (by simp)
    · rename_i it hlk
      split at h
      · exact absurd h (by simp)
      · split at h
        · exact absurd h (by simp)
        · simp only [] at h
          split at h
          · rename_i hv
            obtain rfl := Option.some.inj h
            exact hv
          · exact absurd h (by simp)
  · intro cfg item items o out h
    unfold addSpecificItem at h
    simp only [] at h
    split at h
    · rename_i hv
      obtain rfl := Option.some.inj h
      exact hv
    · exact absurd h (by simp)

end AscItems

namespace AscItems

theorem addNew_total {cfg : Config} {gen : Nat → String} {o : AddOptions} {base : BaseItem}
    {fresh : Nat} {items : List Item} {q : Int} {out : List Item}
    (h : addNewItemStacks cfg gen o base fresh items q = some out) :
    totalQtyOf base.id out = totalQtyOf base.id items + max q 0 := by
  rcases addNewItemStacks_some h with ⟨-, news, rfl, hsum, -, hfields⟩
  rw [totalQtyOf_append, totalQtyOf_of_all_id (fun n hn => (hfields n hn).1), hsum]

/-- C2 witness: a successful `addSpecificItem` (one that appended a new
stack) satisfies the capacity/weight validation at a concrete input. -/
theorem add_split_validate_on_new_stacks_witness :
    verifyStackAndWeight freeConfig [wb "u1" 2] {} = true :=
  add_split_validate_on_new_stacks.2.2 freeConfig (wb "u1" 2) [] {} [wb "u1" 2] (by decide)

theorem greedyFillSpec_nonpos (baseId : String) (ms : Int) :
    ∀ (items : List Item) (q : Int), q ≤ 0 →
      greedyFillSpec baseId ms items q = (items, q) := by
  intro items
  induction items with
  | nil => intro q hq; rfl
  | cons it rest ih =>
    intro q hq
    have hc : ¬(it.id = baseId ∧ it.quantity ≠ ms ∧ 0 < q) := by
      rintro ⟨-, -, h3⟩
      omega
    simp [greedyFillSpec, if_neg hc, ih q hq]

theorem fillExisting_eq_greedyFillSpec (baseId : String) (ms : Int) :
    ∀ (items : List Item) (q : Int),
      fillExisting baseId ms items q = greedyFillSpec baseId ms items q := by
  intro items
  induction items with
  | nil => intro q; rfl
  | cons it rest ih =>
    intro q
    rcases Decidable.em (it.id ≠ baseId ∨ it.quantity = ms) with h1 | h1
    · have hc : ¬(it.id = baseId ∧ it.quantity ≠ ms ∧ 0 < q) := by
        rintro ⟨ha, hb, -⟩
        rcases h1 with h | h
        · exact h ha
        · exact hb h
      simp only [fillExisting, if_pos h1, greedyFillSpec, if_neg hc, ih q]
    · have hid : it.id = baseId := by
        by_contra hc
        exact h1 (Or.inl hc)
      have hqty : it.quantity ≠ ms := fun hc => h1 (Or.inr hc)
      rcases Decidable.em (q ≤ 0) with h2 | h2
      · have hc : ¬(it.id = baseId ∧ it.quantity ≠ ms ∧ 0 < q) := by
          rintro ⟨-, -, h3⟩
          omega
        simp only [fillExisting, if_neg h1, if_pos h2, greedyFillSpec, if_neg hc,
          greedyFillSpec_nonpos baseId ms rest q h2]
      · have hc : it.id = baseId ∧ it.quantity ≠ ms ∧ 0 < q := ⟨hid, hqty, by omega⟩
        simp only [fillExisting, if_neg h1, if_neg h2, greedyFillSpec, if_pos hc, ih]

theorem handleItemStacking_eq_greedy {cfg : Config} {gen : Nat → String} {o : AddOptions}
    {base : BaseItem} {fresh : Nat} {items : List Item} {q : Int}
    (hms : ¬ base.maxStack ≤ 1) :
    handleItemStacking cfg gen o base fresh items q
      = (if 0 < (greedyFillSpec base.id base.maxStack items q).2 then
          addNewItemStacks cfg gen o base fresh
            (greedyFillSpec base.id base.maxStack items q).1
            (greedyFillSpec base.id base.maxStack items q).2
        else some (greedyFillSpec base.id base.maxStack items q).1) := by
  unfold handleItemStacking
  rw [if_neg hms, fillExisting_eq_greedyFillSpec]

/-- C6: the greedy stacking of `add`.  (i) The spec scenario: adding 12
water bottles (maxStack 5) to an empty collection under an unlimited
policy yields exactly three stacks of quantities 5, 5 and 2 in order.
(ii) A scenario exercising existing stacks: adding 7 bottles to stacks
of quantities [3, 5, 2] fills the non-full stacks in collection order to
[5, 5, 5] — skipping the full one — and puts the remaining 2 units into
one new stack.  (iii) In general, for every stackable catalogued type,
`add` is exactly the spec's greedy fill (`greedyFillSpec`: walk existing
stacks in collection order, adding `min(remaining capacity, still to
place)` to each same-type non-full stack while a positive amount
remains) followed by placing any positive remainder into new stacks.
(iv) Those new stacks each carry the type's id and between 1 and
max-stack units, and together exactly the remainder.  (v) Conservation:
any successful `add` raises the collection's total quantity of the type
by exactly the requested amount. -/
theorem add_greedy_fill_spec :
    ((add wbCatalog freeConfig genA 0 "water_bottle" 12 [] {}).1).map (List.map Item.quantity)
      = some [5, 5, 2] ∧
    ((add wbCatalog freeConfig genA 0 "water_bottle" 7
        [wb "u1" 3, wb "u2" 5, wb "u3" 2] {}).1).map (List.map Item.quantity)
      = some [5, 5, 5, 2] ∧
    (∀ catalog cfg gen fresh id q items o base,
      catalog id = some base → ¬ base.maxStack ≤ 1 →
      (add catalog cfg gen fresh id q items o).1
        = (if 0 < (greedyFillSpec base.id base.maxStack items q).2 then
            addNewItemStacks cfg gen o base fresh
              (greedyFillSpec base.id base.maxStack items q).1
              (greedyFillSpec base.id base.maxStack items q).2
          else some (greedyFillSpec base.id base.maxStack items q).1)) ∧
    (∀ cfg gen o base fresh items q out,
      addNewItemStacks cfg gen o base fresh items q = some out →
      ∃ news, out = items ++ news ∧ (news.map Item.quantity).sum = max q 0 ∧
        ∀ n ∈ news, n.id = base.id ∧ 1 ≤ n.quantity ∧ n.quantity ≤ base.maxStack) ∧
    (∀ catalog cfg gen fresh id q items o base out,
      catalog id = some base → 0 ≤ q →
      (add catalog cfg gen fresh id q items o).1 = some out →
      totalQtyOf base.id out = totalQtyOf base.id items + q) := by
  refine ⟨by decide, by decide, ?_, ?_, ?_⟩
  · intro catalog cfg gen fresh id q items o base hcat hms
    unfold add
    simp only [hcat]
    rw [if_neg hms]
    exact handleItemStacking_eq_greedy hms
  · intro cfg gen o base fresh items q out h
    rcases addNewItemStacks_some h with ⟨-, news, rfl, hsum, -, hfields⟩
    refine ⟨news, rfl, hsum, ?_⟩
    intro n hn
    rcases hfields n hn with ⟨h1, -, -, -, -, -, -, h8, h9⟩
    exact ⟨h1, h8, h9⟩
  · intro catalog cfg gen fresh id q items o base out hcat hq h
    unfold add at h
    split at h
    · rename_i heq
      rw [hcat] at heq
      exact Option.noConfusion heq
    · rename_i base' heq
      rw [hcat] at heq
      have hb : base = base' := Option.some.inj heq
      subst hb
      split at h
      · have h' : addNewItemStacks cfg gen o base fresh items q = some out := h
        rw [addNew_total h', max_eq_left hq]
      · have h' : handleItemStacking cfg gen o base fresh items q = some out := h
        unfold handleItemStacking at h'
        split at h'
        · rw [addNew_total h', max_eq_left hq]
        · replace h' :
              (if 0 < (fillExisting base.id base.maxStack items q).2 then
                addNewItemStacks cfg gen o base fresh (fillExisting base.id base.maxStack items q).1
                  (fillExisting base.id base.maxStack items q).2
              else some (fillExisting base.id base.maxStack items q).1) = some out := h'
          have htot := fillExisting_total base.id base.maxStack items q
          split at h'
          · rename_i hrem
            rw [addNew_total h', max_eq_left (le_of_lt hrem)]
            omega
          · rename_i hrem
            obtain rfl := Option.some.inj h'
            have hnn := fillExisting_nonneg base.id base.maxStack items q hq
            omega

/-- C6 witness: the general greedy-fill clause applied at the concrete
existing-stacks scenario, every hypothesis discharged by evaluation. -/
theorem add_greedy_fill_spec_witness :
    (add wbCatalog freeConfig genA 0 "water_bottle" 7
        [wb "u1" 3, wb "u2" 5, wb "u3" 2] {}).1
      = (if 0 < (greedyFillSpec "water_bottle" 5 [wb "u1" 3, wb "u2" 5, wb "u3" 2] 7).2 then
          addNewItemStacks freeConfig genA {} waterBottle 0
            (greedyFillSpec "water_bottle" 5 [wb "u1" 3, wb "u2" 5, wb "u3" 2] 7).1
            (greedyFillSpec "water_bottle" 5 [wb "u1" 3, wb "u2" 5, wb "u3" 2] 7).2
        else some (greedyFillSpec "water_bottle" 5 [wb "u1" 3, wb "u2" 5, wb "u3" 2] 7).1) :=
  add_greedy_fill_spec.2.2.1 wbCatalog freeConfig genA 0 "water_bottle" 7
    [wb "u1" 3, wb "u2" 5, wb "u3" 2] {} waterBottle (by decide) (by decide)

/-- C8 witness: `invokeDecay` on a collection with no decaying stacks
returns it unchanged at a concrete input. -/
theorem invokeDecay_spec_witness :
    invokeDecay [wb "b" 2] = [wb "b" 2] :=
  (invokeDecay_spec [wb "b" 2]).2 (by decide)

end AscItems

namespace AscItems

/-- C5 (amended): for a stack present in the collection whose catalog
entry exists and a positive amount, `split` fails with the
`Item cannot be split` message exactly when the amount reaches or exceeds
the stack's quantity; and every successful such split decrements the
source stack in place and appends a new stack that carries exactly the
amount under the freshly generated uid, every other field — auxiliary
data included — copied from the source, so both stacks end with positive
quantity and their quantities sum to the source's original quantity.
(The counterexample shows that without `1 ≤ amount` a successful split
can produce a non-positive stack.) -/
theorem split_invalid_iff_and_shape
    {catalog : String → Option BaseItem} {cfg : Config} {gen : Nat → String} {fresh : Nat}
    {uid : String} {amount : Int} {items : List Item} {o : AddOptions}
    {src : Item} {base : BaseItem}
    (hsrc : lookupUid uid items = some src)
    (hcat : catalog src.id = some base)
    (hamt : 1 ≤ amount) :
    ((split catalog cfg gen fresh uid amount items o).2 = "Item cannot be split"
        ↔ src.quantity ≤ amount) ∧
    (∀ out, (split catalog cfg gen fresh uid amount items o).1 = some out →
      ∃ l1 l2, items = l1 ++ src :: l2 ∧
        out = l1 ++ { src with quantity := src.quantity - amount }
          :: (l2 ++ [{ src with quantity := amount, uid := gen fresh }]) ∧
        1 ≤ src.quantity - amount ∧ 1 ≤ amount ∧
        (src.quantity - amount) + amount = src.quantity) := by
  have hiff : (src.quantity < amount ∨ src.quantity = amount) ↔ src.quantity ≤ amount := by
    omega
  constructor
  · by_cases hc : src.quantity < amount ∨ src.quantity = amount
    · have h2 : (split catalog cfg gen fresh uid amount items o).2 = "Item cannot be split" := by
        simp only [split, hsrc, hcat, if_pos hc]
      rw [h2]
      exact iff_of_true rfl (hiff.mp hc)
    · have h2 : (split catalog cfg gen fresh uid amount items o).2 = "" := by
        simp only [split, hsrc, hcat, if_neg hc]
      rw [h2]
      exact iff_of_false (by decide) (fun hle => hc (hiff.mpr hle))
  · intro out h
    by_cases hc : src.quantity < amount ∨ src.quantity = amount
    · simp only [split, hsrc, hcat, if_pos hc] at h
      exact absurd h (by simp)
    · have hlt : amount < src.quantity := by
        rcases lt_trichotomy src.quantity amount with h1 | h1 | h1
        · exact absurd (Or.inl h1) hc
        · exact absurd (Or.inr h1) hc
        · exact h1
      simp only [split, hsrc, hcat, if_neg hc] at h
      split at h
      · obtain rfl := Option.some.inj h
        rcases lookupUid_decomp hsrc with ⟨l1, l2, heq, hne⟩
        refine ⟨l1, l2, heq, ?_, by omega, hamt, by omega⟩
        rw [heq, replaceUid_of_decomp _ hne (lookupUid_mem hsrc).2]
        simp [List.append_assoc]
      · exact absurd h (by simp)

/-- C5 witness: the failure criterion instantiated on a concrete stack of
quantity 3 and amount 1 — the split does not fail. -/
theorem split_invalid_iff_and_shape_witness :
    (split wbCatalog freeConfig genA 0 "u1" 1 [wb "u1" 3] {}).2 = "Item cannot be split"
      ↔ (wb "u1" 3).quantity ≤ 1 :=
  (@split_invalid_iff_and_shape wbCatalog freeConfig genA 0 "u1" 1 [wb "u1" 3] {}
    (wb "u1" 3) waterBottle (by decide) (by decide) (by decide)).1

end AscItems

namespace AscItems

theorem QtyInv_replace_of_lookup {uid : String} {f : Item → Item} {items : List Item} {it : Item}
    (hlk : lookupUid uid items = some it) (hinv : QtyInv items)
    (hf : 1 ≤ (f it).quantity ∧ (f it).quantity ≤ (f it).maxStack) :
    QtyInv (replaceUid uid f items) := by
  rcases lookupUid_decomp hlk with ⟨l1, l2, heq, hne⟩
  rw [heq, replaceUid_of_decomp _ hne (lookupUid_mem hlk).2]
  intro x hx
  rcases List.mem_append.mp hx with hx1 | hx2
  · exact hinv x (by rw [heq]; exact List.mem_append_left _ hx1)
  · rcases List.mem_cons.mp hx2 with rfl | hx3
    · exact hf
    · exact hinv x (by rw [heq]; exact List.mem_append_right _ (List.mem_cons_of_mem _ hx3))

theorem QtyInv_eraseUid {uid : String} {items : List Item} (hinv : QtyInv items) :
    QtyInv (eraseUid uid items) :=
  QtyInv_mono (fun x hx => (eraseUid_sublist uid items).subset hx) hinv

theorem QtyInv_addNew {cfg : Config} {gen : Nat → String} {o : AddOptions} {base : BaseItem}
    {fresh : Nat} {items : List Item} {q : Int} {out : List Item}
    (hinv : QtyInv items) (h : addNewItemStacks cfg gen o base fresh items q = some out) :
    QtyInv out := by
  rcases addNewItemStacks_some h with ⟨-, news, rfl, -, -, hfields⟩
  intro x hx
  rcases List.mem_append.mp hx with h1 | h2
  · exact hinv x h1
  · rcases hfields x h2 with ⟨-, hms, -, -, -, -, -, h1le, hle⟩
    exact ⟨h1le, by rw [hms]; exact hle⟩

end AscItems

namespace AscItems

/-- C3 (amended): the quantity invariant — every stack's quantity in
`[1, maxStack]` — is preserved by every successful engine operation,
except where the caller can inject an out-of-range quantity directly:
`add` preserves it (for a catalogued type whose max-stack agrees with the
matching stacks), as do `remove` and `removeQuantityFrom` for
non-negative requested quantities, `removeAt`, `split` for positive
amounts, `stack`, `update` when the patch leaves `quantity` and
`maxStack` unset, and `invokeDecay`; `addSpecificItem` preserves it
exactly when the supplied stack itself is in range.  (The counterexample
shows `update` with a `quantity := 0` patch breaking the unrestricted
claim.) -/
theorem quantity_invariant_preservation :
    (∀ catalog cfg gen fresh id q items o base out,
      catalog id = some base →
      (∀ it ∈ items, it.id = base.id → it.maxStack = base.maxStack) →
      QtyInv items →
      (add catalog cfg gen fresh id q items o).1 = some out → QtyInv out) ∧
    (∀ cfg item items o out,
      1 ≤ item.quantity → item.quantity ≤ item.maxStack →
      QtyInv items →
      (addSpecificItem cfg item items o).1 = some out → QtyInv out) ∧
    (∀ uid q items out,
      0 ≤ q → QtyInv items →
      (remove uid q items).1 = some out → QtyInv out) ∧
    (∀ uid items out itm,
      QtyInv items →
      (removeAt uid items).1 = some (out, itm) → QtyInv out) ∧
    (∀ uid q items out,
      0 ≤ q → QtyInv items →
      (removeQuantityFrom uid q items).1 = some out → QtyInv out) ∧
    (∀ catalog cfg gen fresh uid amount items o out,
      1 ≤ amount → QtyInv items →
      (split catalog cfg gen fresh uid amount items o).1 = some out → QtyInv out) ∧
    (∀ catalog u1 u2 items out,
      QtyInv items →
      (stack catalog u1 u2 items).1 = some out → QtyInv out) ∧
    (∀ uid p items out,
      p.quantity = none → p.maxStack = none → QtyInv items →
      (update uid p items).1 = some out → QtyInv out) ∧
    (∀ items, QtyInv items → QtyInv (invokeDecay items)) := by
  refine ⟨?_, ?_, ?_, ?_, ?_, ?_, ?_, ?_, ?_⟩
  · -- add
    intro catalog cfg gen fresh id q items o base out hcat hcons hinv h
    unfold add at h
    split at h
    · rename_i heq
      rw [hcat] at heq
      exact Option.noConfusion heq
    · rename_i base' heq
      rw [hcat] at heq
      have hb : base = base' := Option.some.inj heq
      subst hb
      split at h
      · exact QtyInv_addNew hinv h
      · have h' : handleItemStacking cfg gen o base fresh items q = some out := h
        unfold handleItemStacking at h'
        split at h'
        · exact QtyInv_addNew hinv h'
        · replace h' :
              (if 0 < (fillExisting base.id base.maxStack items q).2 then
                addNewItemStacks cfg gen o base fresh (fillExisting base.id base.maxStack items q).1
                  (fillExisting base.id base.maxStack items q).2
              else some (fillExisting base.id base.maxStack items q).1) = some out := h'
          have hfill : QtyInv (fillExisting base.id base.maxStack items q).1 :=
            fillExisting_qtyInv hinv hcons
          split at h'
          · exact QtyInv_addNew hfill h'
          · obtain rfl := Option.some.inj h'
            exact hfill
  · -- addSpecificItem
    intro cfg item items o out h1 h2 hinv h
    unfold addSpecificItem at h
    simp only [] at h
    split at h
    · obtain rfl := Option.some.inj h
      intro x hx
      rcases List.mem_append.mp hx with hx1 | hx2
      · exact hinv x hx1
      · rcases List.mem_cons.mp hx2 with rfl | hx3
        · exact ⟨h1, h2⟩
        · exact absurd hx3 (List.not_mem_nil x)
    · exact absurd h (by simp)
  · -- remove
    intro uid q items out hq hinv h
    unfold remove at h
    split at h
    · exact absurd h (by simp)
    · rename_i it hlk
      split at h
      · exact absurd h (by simp)
      · split at h
        · obtain rfl := Option.some.inj h
          exact QtyInv_eraseUid hinv
        · obtain rfl := Option.some.inj h
          rename_i hlt hle
          have hb := hinv it (lookupUid_mem hlk).1
          exact QtyInv_replace_of_lookup hlk hinv ⟨by simp only []; omega, by simp only []; omega⟩
  · -- removeAt
    intro uid items out itm hinv h
    unfold removeAt at h
    split at h
    · exact absurd h (by simp)
    · rename_i it hlk
      have h' : (eraseUid uid items, it) = (out, itm) := Option.some.inj h
      obtain rfl : eraseUid uid items = out := congrArg Prod.fst h'
      exact QtyInv_eraseUid hinv
  · -- removeQuantityFrom
    intro uid q items out hq hinv h
    unfold removeQuantityFrom at h
    split at h
    · exact absurd h (by simp)
    · rename_i it hlk
      split at h
      · exact absurd h (by simp)
      · split at h
        · obtain rfl := Option.some.inj h
          exact QtyInv_eraseUid hinv
        · obtain rfl := Option.some.inj h
          rename_i hlt heq
          have hb := hinv it (lookupUid_mem hlk).1
          exact QtyInv_replace_of_lookup hlk hinv ⟨by simp only []; omega, by simp only []; omega⟩
  · -- split
    intro catalog cfg gen fresh uid amount items o out hamt hinv h
    unfold split at h
    split at h
    · exact absurd h (by simp)
    · rename_i it hlk
      split at h
      · exact absurd h (by simp)
      · split at h
        · exact absurd h (by simp)
        · rename_i hc
          have hlt : amount < it.quantity := by
            rcases lt_trichotomy it.quantity amount with h1 | h1 | h1
            · exact absurd (Or.inl h1) hc
            · exact absurd (Or.inr h1) hc
            · exact h1
          have hb := hinv it (lookupUid_mem hlk).1
          simp only [] at h
          split at h
          · obtain rfl := Option.some.inj h
            intro x hx
            rcases List.mem_append.mp hx with hx1 | hx2
            · exact QtyInv_replace_of_lookup hlk hinv
                ⟨by simp only []; omega, by simp only []; omega⟩ x hx1
            · rcases List.mem_cons.mp hx2 with rfl | hx3
              · exact ⟨hamt, by simp only []; omega⟩
              · exact absurd hx3 (List.not_mem_nil x)
          · exact absurd h (by simp)
  · -- stack
    intro catalog u1 u2 items out hinv h
    unfold stack at h
    split at h
    · exact absurd h (by simp)
    · exact absurd h (by simp)
    · rename_i target source hlk1 hlk2
      split at h
      · exact absurd h (by simp)
      · split at h
        · exact absurd h (by simp)
        · rename_i base hcatsome
          split at h
          · exact absurd h (by simp)
          · simp only [] at h
            have hbt := hinv target (lookupUid_mem hlk1).1
            by_cases hdiff : target.maxStack - target.quantity ≤ 0
            · rw [if_pos hdiff] at h
              exact absurd h (by simp)
            · rw [if_neg hdiff] at h
              have hinv1 : QtyInv (replaceUid u1
                  (fun t => { t with quantity := t.quantity + (target.maxStack - target.quantity) })
                  items) :=
                QtyInv_replace_of_lookup hlk1 hinv ⟨by simp only []; omega, by simp only []; omega⟩
              by_cases hcond : target.maxStack - target.quantity <
                  (if u2 = u1 then target.quantity + (target.maxStack - target.quantity)
                    else source.quantity)
              · rw [if_pos hcond] at h
                obtain rfl := Option.some.inj h
                have hlkrep := @lookupUid_replaceUid u1 u2
                  (fun t => ({ t with
                    quantity := t.quantity + (target.maxStack - target.quantity) } : Item))
                  (fun j => rfl) items
                by_cases huu : u2 = u1
                · rw [if_pos huu] at hlkrep
                  rw [hlk1] at hlkrep
                  exact QtyInv_replace_of_lookup hlkrep hinv1
                    ⟨by simp only []; omega, by simp only []; omega⟩
                · rw [if_neg huu] at hlkrep
                  rw [hlk2] at hlkrep
                  rw [if_neg huu] at hcond
                  have hbs := hinv source (lookupUid_mem hlk2).1
                  exact QtyInv_replace_of_lookup hlkrep hinv1
                    ⟨by simp only []; omega, by simp only []; omega⟩
              · rw [if_neg hcond] at h
                obtain rfl := Option.some.inj h
                exact QtyInv_eraseUid hinv1
  · -- update
    intro uid p items out hq hms hinv h
    unfold update at h
    split at h
    · exact absurd h (by simp)
    · rename_i it hlk
      have hpq : (applyPatch p it).quantity = it.quantity := by
        simp [applyPatch, hq]
      have hpm : (applyPatch p it).maxStack = it.maxStack := by
        simp [applyPatch, hms]
      have hb := hinv it (lookupUid_mem hlk).1
      split at h
      · split at h
        · obtain rfl := Option.some.inj h
          exact QtyInv_eraseUid hinv
        · obtain rfl := Option.some.inj h
          exact QtyInv_replace_of_lookup hlk hinv ⟨by rw [hpq]; omega, by rw [hpq, hpm]; omega⟩
      · obtain rfl := Option.some.inj h
        exact QtyInv_replace_of_lookup hlk hinv ⟨by rw [hpq]; omega, by rw [hpq, hpm]; omega⟩
  · -- invokeDecay
    intro items hinv x hx
    rcases mem_invokeDecay hx with ⟨it, hmem, hqe, hmse⟩
    have hb := hinv it hmem
    rw [hqe, hmse]
    exact hb

/-- C3 witness: the `remove` clause applied at a concrete input — taking
2 of 5 water bottles keeps the collection within `[1, maxStack]`. -/
theorem quantity_invariant_preservation_witness :
    QtyInv [wb "u1" 3] :=
  quantity_invariant_preservation.2.2.1 "u1" 2 [wb "u1" 5] [wb "u1" 3]
    (by decide) (by unfold QtyInv; decide) (by decide)

end AscItems

namespace AscItems

theorem addNew_uid {cfg : Config} {gen : Nat → String} {o : AddOptions} {base : BaseItem}
    {fresh : Nat} {items : List Item} {q : Int} {out : List Item}
    (h : addNewItemStacks cfg gen o base fresh items q = some out) :
    ∃ k, out.map Item.uid = items.map Item.uid ++ (List.range k).map (fun i => gen (fresh + i)) := by
  rcases addNewItemStacks_some h with ⟨-, news, rfl, -, huid, -⟩
  refine ⟨news.length, ?_⟩
  rw [List.map_append]
  congr 1
  apply List.ext_get (by simp)
  intro i h1 h2
  simp only [List.get_map, List.get_range]
  exact huid i (by simpa using h1)

theorem nodup_uid_append {xs : List String} (hnd : xs.Nodup) {gen : Nat → String}
    {fresh k : Nat} (hgen : Function.Injective gen)
    (hdisj : ∀ u ∈ xs, ∀ m, fresh ≤ m → u ≠ gen m) :
    (xs ++ (List.range k).map (fun i => gen (fresh + i))).Nodup := by
  rw [List.nodup_append]
  refine ⟨hnd, ?_, ?_⟩
  · refine List.Nodup.map ?_ (List.nodup_range k)
    intro a b hab
    have := hgen hab
    omega
  · intro a ha hb
    rcases List.mem_map.mp hb with ⟨i, _, rfl⟩
    exact hdisj _ ha (fresh + i) (by omega) rfl

/-- C9 (amended): uid distinctness is preserved by every engine
operation that does not let the caller inject an identifier directly:
`add` preserves it and appends only freshly generated identifiers (the
generator values from the call's counter on), as does `split` (one fresh
identifier); `remove`, `removeAt`, `removeQuantityFrom`, `stack`,
`update` with a patch leaving `uid` unset, and `invokeDecay` never
change the surviving identifiers; `addSpecificItem` preserves
distinctness exactly when the supplied stack's identifier is not already
present.  (The counterexample shows `addSpecificItem` with a colliding
identifier breaking the unrestricted claim.) -/
theorem uid_uniqueness_preservation :
    (∀ catalog cfg gen fresh id q items o out,
      Function.Injective gen →
      (∀ it ∈ items, ∀ m, fresh ≤ m → it.uid ≠ gen m) →
      UidsNodup items →
      (add catalog cfg gen fresh id q items o).1 = some out →
      UidsNodup out ∧ ∃ k, out.map Item.uid
        = items.map Item.uid ++ (List.range k).map (fun i => gen (fresh + i))) ∧
    (∀ cfg item items o out,
      UidsNodup items → item.uid ∉ items.map Item.uid →
      (addSpecificItem cfg item items o).1 = some out → UidsNodup out) ∧
    (∀ uid q items out,
      UidsNodup items → (remove uid q items).1 = some out → UidsNodup out) ∧
    (∀ uid items out itm,
      UidsNodup items → (removeAt uid items).1 = some (out, itm) → UidsNodup out) ∧
    (∀ uid q items out,
      UidsNodup items → (removeQuantityFrom uid q items).1 = some out → UidsNodup out) ∧
    (∀ catalog cfg gen fresh uid amount items o out,
      (∀ it ∈ items, it.uid ≠ gen fresh) → UidsNodup items →
      (split catalog cfg gen fresh uid amount items o).1 = some out →
      UidsNodup out ∧ out.map Item.uid = items.map Item.uid ++ [gen fresh]) ∧
    (∀ catalog u1 u2 items out,
      UidsNodup items → (stack catalog u1 u2 items).1 = some out → UidsNodup out) ∧
    (∀ uid p items out,
      p.uid = none → UidsNodup items → (update uid p items).1 = some out → UidsNodup out) ∧
    (∀ items, UidsNodup items → UidsNodup (invokeDecay items)) := by
  refine ⟨?_, ?_, ?_, ?_, ?_, ?_, ?_, ?_, ?_⟩
  · -- add
    intro catalog cfg gen fresh id q items o out hgen hfresh hnd h
    unfold add at h
    split at h
    · exact absurd h (by simp)
    · split at h
      · rename_i base heq hms
        have h' : addNewItemStacks cfg gen o base fresh items q = some out := h
        rcases addNew_uid h' with ⟨k, hmap⟩
        refine ⟨?_, k, hmap⟩
        unfold UidsNodup
        rw [hmap]
        exact nodup_uid_append hnd hgen (fun u hu => by
          rcases List.mem_map.mp hu with ⟨it, hit, rfl⟩
          exact hfresh it hit)
      · rename_i base heq hms
        have h' : handleItemStacking cfg gen o base fresh items q = some out := h
        unfold handleItemStacking at h'
        split at h'
        · rcases addNew_uid h' with ⟨k, hmap⟩
          refine ⟨?_, k, hmap⟩
          unfold UidsNodup
          rw [hmap]
          exact nodup_uid_append hnd hgen (fun u hu => by
            rcases List.mem_map.mp hu with ⟨it, hit, rfl⟩
            exact hfresh it hit)
        · replace h' :
              (if 0 < (fillExisting base.id base.maxStack items q).2 then
                addNewItemStacks cfg gen o base fresh (fillExisting base.id base.maxStack items q).1
                  (fillExisting base.id base.maxStack items q).2
              else some (fillExisting base.id base.maxStack items q).1) = some out := h'
          have hfillmap := fillExisting_map_uid base.id base.maxStack items q
          split at h'
          · rcases addNew_uid h' with ⟨k, hmap⟩
            rw [hfillmap] at hmap
            refine ⟨?_, k, hmap⟩
            unfold UidsNodup
            rw [hmap]
            exact nodup_uid_append hnd hgen (fun u hu => by
              rcases List.mem_map.mp hu with ⟨it, hit, rfl⟩
              exact hfresh it hit)
          · obtain rfl := Option.some.inj h'
            refine ⟨?_, 0, by simpa using hfillmap⟩
            unfold UidsNodup
            rw [hfillmap]
            exact hnd
  · -- addSpecificItem
    intro cfg item items o out hnd hnotin h
    unfold addSpecificItem at h
    simp only [] at h
    split at h
    · obtain rfl := Option.some.inj h
      unfold UidsNodup
      rw [List.map_append]
      rw [List.nodup_append]
      refine ⟨hnd, by simp, ?_⟩
      intro a ha hb
      simp only [List.map_cons, List.map_nil, List.mem_singleton] at hb
      subst hb
      exact hnotin ha
    · exact absurd h (by simp)
  · -- remove
    intro uid q items out hnd h
    unfold remove at h
    split at h
    · exact absurd h (by simp)
    · split at h
      · exact absurd h (by simp)
      · split at h
        · obtain rfl := Option.some.inj h
          exact UidsNodup_eraseUid hnd
        · obtain rfl := Option.some.inj h
          refine UidsNodup_replaceUid ?_ hnd
          exact fun j => rfl
  · -- removeAt
    intro uid items out itm hnd h
    unfold removeAt at h
    split at h
    · exact absurd h (by simp)
    · have h' := Option.some.inj h
      obtain rfl : eraseUid uid items = out := congrArg Prod.fst h'
      exact UidsNodup_eraseUid hnd
  · -- removeQuantityFrom
    intro uid q items out hnd h
    unfold removeQuantityFrom at h
    split at h
    · exact absurd h (by simp)
    · split at h
      · exact absurd h (by simp)
      · split at h
        · obtain rfl := Option.some.inj h
          exact UidsNodup_eraseUid hnd
        · obtain rfl := Option.some.inj h
          refine UidsNodup_replaceUid ?_ hnd
          exact fun j => rfl
  · -- split
    intro catalog cfg gen fresh uid amount items o out hfresh1 hnd h
    unfold split at h
    split at h
    · exact absurd h (by simp)
    · rename_i it hlk
      split at h
      · exact absurd h (by simp)
      · split at h
        · exact absurd h (by simp)
        · simp only [] at h
          split at h
          · obtain rfl := Option.some.inj h
            have hmap : (replaceUid uid
                  (fun j => ({ j with quantity := j.quantity - amount } : Item)) items
                ++ [({ it with quantity := amount, uid := gen fresh } : Item)]).map Item.uid
                = items.map Item.uid ++ [gen fresh] := by
              rw [List.map_append,
                @replaceUid_map_uid uid
                  (fun j => ({ j with quantity := j.quantity - amount } : Item))
                  (fun j => rfl) items]
              rfl
            refine ⟨?_, hmap⟩
            unfold UidsNodup
            rw [hmap, List.nodup_append]
            refine ⟨hnd, by simp, ?_⟩
            intro a ha hb
            simp only [List.mem_singleton] at hb
            subst hb
            rcases List.mem_map.mp ha with ⟨j, hj, hjeq⟩
            exact hfresh1 j hj hjeq
          · exact absurd h (by simp)
  · -- stack
    intro catalog u1 u2 items out hnd h
    unfold stack at h
    split at h
    · exact absurd h (by simp)
    · exact absurd h (by simp)
    · rename_i target source hlk1 hlk2
      split at h
      · exact absurd h (by simp)
      · split at h
        · exact absurd h (by simp)
        · split at h
          · exact absurd h (by simp)
          · simp only [] at h
            by_cases hdiff : target.maxStack - target.quantity ≤ 0
            · rw [if_pos hdiff] at h
              exact absurd h (by simp)
            · rw [if_neg hdiff] at h
              have hnd1 : UidsNodup (replaceUid u1
                  (fun t => { t with quantity := t.quantity + (target.maxStack - target.quantity) })
                  items) := by
                refine UidsNodup_replaceUid ?_ hnd
                exact fun j => rfl
              by_cases hcond : target.maxStack - target.quantity <
                  (if u2 = u1 then target.quantity + (target.maxStack - target.quantity)
                    else source.quantity)
              · rw [if_pos hcond] at h
                obtain rfl := Option.some.inj h
                refine UidsNodup_replaceUid ?_ hnd1
                exact fun j => rfl
              · rw [if_neg hcond] at h
                obtain rfl := Option.some.inj h
                exact UidsNodup_eraseUid hnd1
  · -- update
    intro uid p items out hpu hnd h
    unfold update at h
    split at h
    · exact absurd h (by simp)
    · split at h
      · split at h
        · obtain rfl := Option.some.inj h
          exact UidsNodup_eraseUid hnd
        · obtain rfl := Option.some.inj h
          refine UidsNodup_replaceUid ?_ hnd
          intro j
          simp [applyPatch, hpu]
      · obtain rfl := Option.some.inj h
        refine UidsNodup_replaceUid ?_ hnd
        intro j
        simp [applyPatch, hpu]
  · -- invokeDecay
    intro items hnd
    exact (invokeDecay_uid_sublist items).nodup hnd

/-- C9 witness: the `remove` clause applied at a concrete input keeps
uids pairwise distinct. -/
theorem uid_uniqueness_preservation_witness :
    UidsNodup [wb "u1" 2] :=
  uid_uniqueness_preservation.2.2.1 "u1" 3 [wb "u1" 5] [wb "u1" 2]
    (by unfold UidsNodup; decide) (by decide)

end AscItems

